import Mathlib

/-
Verification of the investment_copilot backend data pipeline.

This file gives a shallow embedding, in Lean 4, of the parts of the
backend that the testable properties of the specification talk about:

* `TimeSeriesRepository` (src/infrastructure/db/repository/base.py):
  the durable time-series table is modelled as a list of rows whose
  primary key is the pair (code, time); `session.merge` (upsert) replaces
  the row with the matching primary key or inserts a new one.
* `WatchlistRepository` (same file): the watchlist table is a list of
  entries with a unique index on (user_id, code).
* `RedisCache` / `BaseService` cache wrappers (src/infrastructure/cache/
  redis_cache.py, src/service/base.py): fallible backend calls are
  modelled as `Except` values that the wrappers absorb.
* `StockService` (src/service/stock_service.py): trading-hours gate,
  realtime read path (with an explicit event trace recording the order
  of side effects), and the watchlist mutation/cache-invalidation path.
* `ConversationMemory` (src/agent/memory/conversation_memory.py) and the
  `InvestmentAgent.chat` ReAct loop (src/agent/investment_agent.py).

Numeric DB columns (SQL Float / BigInteger) are modelled with exact
integers `Int`; timestamps are modelled as `Nat` (epoch seconds); wall
clock times as an (hour, minute, second) structure ordered the way
the Python `datetime.time` comparison orders valid times.
-/

/-- One row of a time-series quote table (model of `StockQuote` in
src/infrastructure/db/models/stock.py, keeping the columns the verified
operations read: the composite primary key (code, time) and the OHLCV
payload). -/
structure QuoteRec where
  time : Nat
  code : String
  name : String
  «open» : Int
  high : Int
  low : Int
  close : Int
  volume : Int
deriving DecidableEq, Repr

/-- Two rows share the composite primary key (code, time) of the table. -/
def sameKey (a b : QuoteRec) : Bool :=
  decide (a.code = b.code ∧ a.time = b.time)

namespace TimeSeriesRepository

/-- Model of `TimeSeriesRepository.save_quote`: `session.merge` upserts on the
primary key (code, time) — the existing row with that key is replaced,
otherwise the row is inserted. -/
def save_quote (store : List QuoteRec) (r : QuoteRec) : List QuoteRec :=
  if store.any (fun s => sameKey s r) then
    store.map (fun s => if sameKey s r then r else s)
  else
    store ++ [r]

/-- Model of `TimeSeriesRepository.save_quotes`: merges each record in order and
returns the length of the input batch. -/
def save_quotes (store : List QuoteRec) (data_list : List QuoteRec) :
    List QuoteRec × Nat :=
  (data_list.foldl save_quote store, data_list.length)

/-- Model of `TimeSeriesRepository.get_latest`: rows with the given code, ordered
by time descending, limit 1 — i.e. a row of maximal time among the rows
with that code. -/
def get_latest (store : List QuoteRec) (code : String) : Option QuoteRec :=
  (store.filter (fun s => s.code == code)).foldl
    (fun acc s =>
      match acc with
      | none => some s
      | some b => if s.time > b.time then some s else acc)
    none

/-- Number of rows in the store carrying the primary key of `r`. -/
def keyCount (store : List QuoteRec) (r : QuoteRec) : Nat :=
  store.countP (fun s => sameKey s r)

/-- A batch has pairwise distinct primary keys (the data-model invariant
"within one provider fetch batch, no duplicate (code, time) pairs"). -/
def KeysNodup (l : List QuoteRec) : Prop :=
  l.Pairwise (fun a b => sameKey a b = false)

/-- Whether some stored row carries the primary key of `r`. -/
def hasKey (store : List QuoteRec) (r : QuoteRec) : Bool :=
  store.any (fun s => sameKey s r)

end TimeSeriesRepository

namespace TimeSeriesRepository

/-- TimescaleDB `time_bucket`: the start of the width-`w` bucket
containing `t`. -/
def time_bucket (w t : Nat) : Nat := w * (t / w)

/-- The WHERE clause of `get_by_time_bucket`: same code and
`start_time <= time <= end_time` (both ends inclusive). -/
def inRange (code : String) (start_time end_time : Nat) (r : QuoteRec) : Bool :=
  decide (r.code = code ∧ start_time ≤ r.time ∧ r.time ≤ end_time)

/-- One aggregated output row of `get_by_time_bucket`. -/
structure BucketRow where
  bucket : Nat
  code : String
  «open» : Int
  high : Int
  low : Int
  close : Int
  volume : Int
deriving DecidableEq, Repr

/-- The SELECT aggregates over one non-empty group:
`FIRST(open, time), MAX(high), MIN(low), LAST(close, time), SUM(volume)`. -/
def aggGroup (b : Nat) (code : String) (r0 : QuoteRec) (rest : List QuoteRec) :
    BucketRow :=
  { bucket := b
    code := code
    «open» := (rest.foldl (fun acc r => if r.time < acc.time then r else acc) r0).«open»
    high := rest.foldl (fun acc r => max acc r.high) r0.high
    low := rest.foldl (fun acc r => min acc r.low) r0.low
    close := (rest.foldl (fun acc r => if acc.time < r.time then r else acc) r0).close
    volume := rest.foldl (fun acc r => acc + r.volume) r0.volume }

/-- Model of `TimeSeriesRepository.get_by_time_bucket`: rows for the code within
the closed time range, grouped by `time_bucket`, aggregated with the
OHLCV roll-up, ordered by bucket ascending. -/
def get_by_time_bucket (store : List QuoteRec) (code : String)
    (start_time end_time : Nat) (w : Nat) : List BucketRow :=
  let rows := store.filter (inRange code start_time end_time)
  let buckets := ((rows.map (fun r => time_bucket w r.time)).dedup).insertionSort (· ≤ ·)
  buckets.filterMap (fun b =>
    match rows.filter (fun r => time_bucket w r.time == b) with
    | [] => none
    | r0 :: rest => some (aggGroup b code r0 rest))

/-- The rows of the store that fall in one (code, range, bucket) group —
the GROUP BY class of `get_by_time_bucket` for bucket start `b`. -/
def bucketRows (store : List QuoteRec) (code : String)
    (start_time end_time w b : Nat) : List QuoteRec :=
  (store.filter (inRange code start_time end_time)).filter
    (fun r => time_bucket w r.time == b)

end TimeSeriesRepository

/-- One row of a watchlist table (model of `StockWatchlist`): unique
index on (user_id, code); `id` is the autoincrement surrogate key. -/
structure WatchlistEntry where
  id : Nat
  user_id : String
  code : String
  name : Option String
  market : String
  sort_order : Int
  notes : Option String
deriving DecidableEq, Repr

/-- The unique-index key predicate on (user_id, code). -/
def entryKey (user_id code : String) (e : WatchlistEntry) : Bool :=
  decide (e.user_id = user_id ∧ e.code = code)

namespace WatchlistRepository

/-- Model of the autoincrement id: one more than the largest id in use. -/
def next_id (wl : List WatchlistEntry) : Nat :=
  wl.foldl (fun acc e => max acc e.id) 0 + 1

/-- Model of `WatchlistRepository.add_to_watchlist`: select the existing row by
(user_id, code) and return it unchanged if present; otherwise insert a
fresh row (sort_order defaults to 0) and return it. -/
def add_to_watchlist (wl : List WatchlistEntry) (user_id code : String)
    (name : Option String) (market : String) :
    List WatchlistEntry × WatchlistEntry :=
  match wl.find? (entryKey user_id code) with
  | some existing => (wl, existing)
  | none =>
    let e : WatchlistEntry :=
      { id := next_id wl, user_id := user_id, code := code, name := name
        market := market, sort_order := 0, notes := none }
    (wl ++ [e], e)

/-- Model of `WatchlistRepository.remove_from_watchlist`: DELETE by (user_id,
code); returns whether any row was deleted. -/
def remove_from_watchlist (wl : List WatchlistEntry) (user_id code : String) :
    List WatchlistEntry × Bool :=
  (wl.filter (fun e => !(entryKey user_id code e)), wl.any (entryKey user_id code))

/-- Number of watchlist rows carrying the key (user_id, code). -/
def keyCount (wl : List WatchlistEntry) (user_id code : String) : Nat :=
  wl.countP (entryKey user_id code)

end WatchlistRepository

/-- The Redis keyspace, modelled as an association list from key to the
stored serialized value; the most recent write for a key is in front. -/
abbrev Cache := List (String × String)

namespace CacheStore

/-- State-level read: the value most recently written for the key. -/
def get (c : Cache) (k : String) : Option String :=
  (c.find? (fun kv => kv.1 == k)).map (fun kv => kv.2)

/-- State-level `SETEX`: overwrite the key with a fresh value. -/
def set (c : Cache) (k v : String) : Cache :=
  (k, v) :: c.filter (fun kv => !(kv.1 == k))

/-- State-level `DEL`: drop every binding of the key. -/
def del (c : Cache) (k : String) : Cache :=
  c.filter (fun kv => !(kv.1 == k))

end CacheStore

namespace RedisCache

/-- Model of `RedisCache.get`: `raw` is the backend response (a `RedisError` or an
optional stored payload); a falsy payload (absent or empty string) yields
None, otherwise the payload is JSON-decoded and a decode failure is
caught and also yields None. -/
def get (raw : Except String (Option String))
    (parse : String → Except String α) : Option α :=
  match raw with
  | .error _ => none
  | .ok none => none
  | .ok (some s) =>
    if s = "" then none
    else
      match parse s with
      | .error _ => none
      | .ok v => some v

end RedisCache

namespace BaseService

/-- Model of `BaseService._cache_key`: the service prefix and the
arguments joined with colons. -/
def _cache_key ( cache_prefix : String) (args : List String) : String :=
  cache_prefix ++ ":" ++ String.intercalate ":" args

/-- Model of `BaseService._get_from_cache`: the underlying `cache.get` call either
returns an optional value or raises; a raised error is logged and turned
into a miss. -/
def _get_from_cache (call : Except String (Option α)) : Option α :=
  match call with
  | .error _ => none
  | .ok v => v

/-- Model of `BaseService._set_to_cache`: a raised error becomes `False`. -/
def _set_to_cache (call : Except String Bool) : Bool :=
  match call with
  | .error _ => false
  | .ok b => b

/-- Model of `BaseService._delete_from_cache`: a raised error becomes `False`. -/
def _delete_from_cache (call : Except String Bool) : Bool :=
  match call with
  | .error _ => false
  | .ok b => b

end BaseService

/-- A wall-clock time of day, as a Python `datetime.time` with seconds
granularity (the constants compared against use whole minutes). -/
structure TimeOfDay where
  hour : Nat
  minute : Nat
  second : Nat
deriving DecidableEq, Repr

/-- Seconds since midnight; for in-range field values this ordering
agrees with the lexicographic Python `datetime.time` comparison. -/
def TimeOfDay.toSeconds (t : TimeOfDay) : Nat :=
  t.hour * 3600 + t.minute * 60 + t.second

/-- Python `time <= time` comparison. -/
def TimeOfDay.le (a b : TimeOfDay) : Bool :=
  decide (a.toSeconds ≤ b.toSeconds)

/-- Model of `TRADING_HOURS` from src/service/stock_service.py: the morning
session (09:15-11:30, auction included) and the afternoon session
(13:00-15:00). -/
def TRADING_HOURS : List (TimeOfDay × TimeOfDay) :=
  [(⟨9, 15, 0⟩, ⟨11, 30, 0⟩), (⟨13, 0, 0⟩, ⟨15, 0, 0⟩)]

namespace StockService

/-- Model of `StockService._is_trading_time`, with `datetime.now()` made explicit
as the pair (weekday, wall-clock time); Python weekday numbering has
0 = Monday, 5 = Saturday, 6 = Sunday. -/
def _is_trading_time (weekday : Nat) (current_time : TimeOfDay) : Bool :=
  if weekday ≥ 5 then false
  else TRADING_HOURS.any (fun se => se.1.le current_time && current_time.le se.2)

/-- One observable side-effecting call made by the realtime read path,
in program order. -/
inductive Event where
  | cacheGet (key : String)
  | providerFetch
  | dbSave (ok : Bool)
  | cacheSet (key : String)
deriving DecidableEq, Repr

/-- The environment one `get_realtime_quotes` call runs against: the
outcome of the cache read for its key, the provider batch, and whether
the durable `save_quotes` write fails (its exception is caught). -/
structure RealtimeEnv where
  cache_result : Except String (Option (List QuoteRec))
  provider_data : List QuoteRec
  db_fails : Bool

/-- The cache-key argument `",".join(codes) if codes else "all"` (both
`None` and the empty list are falsy). -/
def realtime_arg (codes : Option (List String)) : String :=
  match codes with
  | some (c :: cs) => String.intercalate "," (c :: cs)
  | _ => "all"

/-- Model of `StockService.get_realtime_quotes`: cache-first read (a cached empty
list is falsy and does not count as a hit); on miss, provider fetch, then
best-effort durable upsert (failure caught and logged), then cache
refill, in that order. Returns the served list together with the ordered
trace of side-effecting calls. -/
def get_realtime_quotes (env : RealtimeEnv) (codes : Option (List String))
    (use_cache : Bool) : List QuoteRec × List Event :=
  let key := BaseService._cache_key "stock" ["realtime", realtime_arg codes]
  let cached := if use_cache then BaseService._get_from_cache env.cache_result else none
  let t0 := if use_cache then [Event.cacheGet key] else []
  match cached with
  | some (q :: qs) => (q :: qs, t0)
  | _ =>
    match env.provider_data with
    | [] => ([], t0 ++ [Event.providerFetch])
    | d :: ds =>
      (d :: ds,
       t0 ++ [Event.providerFetch, Event.dbSave (!env.db_fails), Event.cacheSet key])

/-- The watchlist cache key for one user and market scope:
`stock:watchlist:{user_id}:{market}`. -/
def watchlist_cache_key (user_id market : String) : String :=
  BaseService._cache_key "stock" ["watchlist", user_id, market]

/-- Model of `StockService._clear_watchlist_cache`: deletes the four market-scoped
watchlist keys (all/CN/HK/US) of the given user. -/
def _clear_watchlist_cache (c : Cache) (user_id : String) : Cache :=
  let c1 := CacheStore.del c (watchlist_cache_key user_id "all")
  let c2 := CacheStore.del c1 (watchlist_cache_key user_id "CN")
  let c3 := CacheStore.del c2 (watchlist_cache_key user_id "HK")
  CacheStore.del c3 (watchlist_cache_key user_id "US")

/-- The state a `StockService` watchlist mutation touches: the watchlist
table and the cache keyspace. -/
structure ServiceState where
  watchlist : List WatchlistEntry
  cache : Cache
deriving Repr

/-- The dict `StockService.add_to_watchlist` returns. -/
structure AddResult where
  id : Nat
  code : String
  name : Option String
  market : String
deriving DecidableEq, Repr

/-- Model of `StockService.add_to_watchlist`: repository upsert-or-return, then
synchronous invalidation of the four watchlist cache keys of the user. -/
def add_to_watchlist (st : ServiceState) (code : String) (user_id : String)
    (name : Option String) (market : String) : ServiceState × AddResult :=
  let wr := WatchlistRepository.add_to_watchlist st.watchlist user_id code name market
  let cache := _clear_watchlist_cache st.cache user_id
  ({ watchlist := wr.1, cache := cache },
   { id := wr.2.id, code := wr.2.code, name := wr.2.name, market := wr.2.market })

/-- Model of `StockService.remove_from_watchlist`: repository delete, then
synchronous invalidation of the four watchlist cache keys of the user. -/
def remove_from_watchlist (st : ServiceState) (code : String)
    (user_id : String) : ServiceState × Bool :=
  let wr := WatchlistRepository.remove_from_watchlist st.watchlist user_id code
  let cache := _clear_watchlist_cache st.cache user_id
  ({ watchlist := wr.1, cache := cache }, wr.2)

end StockService

/-- One stored conversation turn (the dict built by
`ConversationMemory.add_message`: role, content, timestamp). -/
structure StoredMsg where
  role : String
  content : String
  timestamp : Nat
deriving DecidableEq, Repr

namespace ConversationMemory

/-- Python slice `history[-max_messages:]`: for a positive bound it keeps
the (at most) `max_messages` last elements; for bound 0 the slice is
`history[0:]`, the whole list. -/
def py_slice_last (max_messages : Nat) (l : List StoredMsg) : List StoredMsg :=
  if max_messages = 0 then l else l.drop (l.length - max_messages)

/-- Model of `ConversationMemory.add_message` on the stored history: append the
new message, then truncate to the most recent `max_messages` when the
length exceeds the cap. (A Redis failure is caught and leaves the stored
history unchanged; this is the successful-write state.) -/
def add_message (max_messages : Nat) (history : List StoredMsg)
    (m : StoredMsg) : List StoredMsg :=
  let history := history ++ [m]
  if history.length > max_messages then py_slice_last max_messages history
  else history

/-- One message in the list handed to the LLM: only role and content. -/
structure LLMMsg where
  role : String
  content : String
deriving DecidableEq, Repr

/-- Model of `ConversationMemory.get_messages_for_llm`: keep, in order, the stored
messages whose role is one of user/assistant/system, each reduced to its
role and content fields. -/
def get_messages_for_llm (history : List StoredMsg) : List LLMMsg :=
  (history.filter
      (fun m => m.role == "user" || m.role == "assistant" || m.role == "system")).map
    (fun m => { role := m.role, content := m.content })

end ConversationMemory

/-- One tool call requested by the LLM. -/
structure ToolCall where
  id : String
  name : String
  arguments : String
deriving DecidableEq, Repr

/-- One entry of the `messages` list the agent sends to the LLM. -/
inductive Msg where
  | system (content : String)
  | user (content : String)
  | assistant (content : String) (tool_calls : List ToolCall)
  | tool (tool_call_id : String) (content : String)
deriving DecidableEq, Repr

/-- The outcome of one `chat.completions.create` call: either an
assistant message (content, with `None` modelled as the empty string —
Python truthiness identifies them — and a possibly empty tool-call list)
or a raised exception. -/
inductive LLMResult where
  | message (content : String) (tool_calls : List ToolCall)
  | failure (err : String)

namespace InvestmentAgent

/-- Model of `self.max_iterations` as set in `InvestmentAgent.__init__`. -/
def max_iterations : Nat := 5

/-- Model of `InvestmentAgent._execute_tool`: unknown tools and raised tool
exceptions both become error strings, never exceptions. -/
def _execute_tool (tools : List String)
    (run_tool : String → String → Except String String)
    (name arguments : String) : String :=
  if name ∈ tools then
    match run_tool name arguments with
    | .ok r => r
    | .error e => "工具执行失败: " ++ e
  else "未知工具: " ++ name

/-- The `while iteration < max_iterations` loop of `InvestmentAgent.chat`,
with the LLM stubbed as a function of the current message list. Returns
the final response together with the number of LLM calls made. A
response with a non-empty tool-call list appends the assistant message
and one tool-role result per call, then iterates; a tool-free response
ends the loop with its content (falsy content replaced by the apology
message); a raised LLM error ends the loop with an error string. When
the fuel runs out the loop exits with `final_response` still holding its
initial value, the empty string. -/
def chat_loop (llm : List Msg → LLMResult) (tools : List String)
    (run_tool : String → String → Except String String) :
    Nat → List Msg → String × Nat
  | 0, _ => ("", 0)
  | Nat.succ fuel, messages =>
    match llm messages with
    | .failure e => ("处理请求时发生错误: " ++ e, 1)
    | .message content tool_calls =>
      match tool_calls with
      | [] => (if content = "" then "抱歉，我无法生成回复。" else content, 1)
      | tc :: tcs =>
        let messages := messages ++ [Msg.assistant content (tc :: tcs)] ++
          (tc :: tcs).map
            (fun t => Msg.tool t.id (_execute_tool tools run_tool t.name t.arguments))
        let r := chat_loop llm tools run_tool fuel messages
        (r.1, r.2 + 1)

/-- Model of `InvestmentAgent.chat`: append the user message to short-term memory,
build the message list (system prompt, then the role/content reduction of
the stored history), and run the bounded loop. -/
def chat (llm : List Msg → LLMResult) (tools : List String)
    (run_tool : String → String → Except String String)
    (max_messages : Nat) (history : List StoredMsg)
    (system_prompt user_message : String) (now : Nat) : String × Nat :=
  let memory := ConversationMemory.add_message max_messages history
    { role := "user", content := user_message, timestamp := now }
  let messages := Msg.system system_prompt ::
    (ConversationMemory.get_messages_for_llm memory).map
      (fun m =>
        if m.role = "user" then Msg.user m.content
        else if m.role = "assistant" then Msg.assistant m.content []
        else Msg.system m.content)
  chat_loop llm tools run_tool max_iterations messages

end InvestmentAgent

/-- C8: the trading-hours gate is false on every Saturday/Sunday instant;
on a weekday it is true exactly on the union of the morning session
(09:15-11:30) and the afternoon session (13:00-15:00), measured in
seconds since midnight; in particular it is false at 12:00 noon and true
at 10:00 and at 14:00 on a weekday. -/
theorem C8_trading_hours_gate (weekday : Nat) (t : TimeOfDay) :
    (weekday = 5 ∨ weekday = 6 → StockService._is_trading_time weekday t = false) ∧
    (weekday < 5 →
      (StockService._is_trading_time weekday t = true ↔
        ((9 * 3600 + 15 * 60 ≤ t.toSeconds ∧ t.toSeconds ≤ 11 * 3600 + 30 * 60) ∨
         (13 * 3600 ≤ t.toSeconds ∧ t.toSeconds ≤ 15 * 3600)))) ∧
    (weekday < 5 →
      StockService._is_trading_time weekday ⟨12, 0, 0⟩ = false ∧
      StockService._is_trading_time weekday ⟨10, 0, 0⟩ = true ∧
      StockService._is_trading_time weekday ⟨14, 0, 0⟩ = true) := by
  refine ⟨?_, ?_, ?_⟩
  · rintro (rfl | rfl) <;> simp [StockService._is_trading_time]
  · intro h
    simp [StockService._is_trading_time, TRADING_HOURS, TimeOfDay.le,
      TimeOfDay.toSeconds, show ¬ weekday ≥ 5 by omega]
  · intro h
    refine ⟨?_, ?_, ?_⟩ <;>
      simp [StockService._is_trading_time, TRADING_HOURS, TimeOfDay.le,
        TimeOfDay.toSeconds, show ¬ weekday ≥ 5 by omega]

/-- Witness for C8 at concrete instants: Wednesday (weekday 2) at 10:00
and 14:00 is trading time, Wednesday noon is not, Saturday 10:00 is
not. -/
theorem C8_trading_hours_gate_witness :
    StockService._is_trading_time 2 ⟨10, 0, 0⟩ = true ∧
    StockService._is_trading_time 2 ⟨14, 0, 0⟩ = true ∧
    StockService._is_trading_time 2 ⟨12, 0, 0⟩ = false ∧
    StockService._is_trading_time 5 ⟨10, 0, 0⟩ = false :=
  ⟨((C8_trading_hours_gate 2 ⟨10, 0, 0⟩).2.2 (by decide)).2.1,
   ((C8_trading_hours_gate 2 ⟨14, 0, 0⟩).2.2 (by decide)).2.2,
   ((C8_trading_hours_gate 2 ⟨12, 0, 0⟩).2.2 (by decide)).1,
   (C8_trading_hours_gate 5 ⟨10, 0, 0⟩).1 (Or.inl rfl)⟩

/-- C10: the list sent to the LLM is exactly the stored messages whose
role is user, assistant or system, in their stored order, each reduced to
role and content; no message of any other role (such as tool) appears. -/
theorem C10_messages_for_llm (history : List StoredMsg) :
    ConversationMemory.get_messages_for_llm history =
      (history.filter
          (fun m => decide (m.role = "user" ∨ m.role = "assistant" ∨ m.role = "system"))).map
        (fun m => { role := m.role, content := m.content }) ∧
    (∀ m ∈ ConversationMemory.get_messages_for_llm history,
      m.role = "user" ∨ m.role = "assistant" ∨ m.role = "system") := by
  constructor
  · unfold ConversationMemory.get_messages_for_llm
    congr 1
    apply List.filter_congr
    intro m _
    by_cases h1 : m.role = "user" <;> by_cases h2 : m.role = "assistant" <;>
      by_cases h3 : m.role = "system" <;> simp [h1, h2, h3]
  · intro m hm
    unfold ConversationMemory.get_messages_for_llm at hm
    simp only [List.mem_map, List.mem_filter] at hm
    obtain ⟨x, ⟨-, hx⟩, rfl⟩ := hm
    simpa [or_assoc] using hx

/-- Witness for C10 on a concrete history containing a tool turn: the
tool message is dropped, the others keep role/content in order. -/
theorem C10_messages_for_llm_witness :
    ConversationMemory.get_messages_for_llm
        [⟨"user", "hi", 0⟩, ⟨"tool", "result", 1⟩, ⟨"assistant", "ok", 2⟩] =
      [⟨"user", "hi"⟩, ⟨"assistant", "ok"⟩] := by
  have h := (C10_messages_for_llm
    [⟨"user", "hi", 0⟩, ⟨"tool", "result", 1⟩, ⟨"assistant", "ok", 2⟩]).1
  rw [h]
  decide

/-- Helper for C7: one `add_message` leaves at most `max_messages` stored
turns (for a positive cap). -/
theorem add_message_length_le (max_messages : Nat) (h : 1 ≤ max_messages)
    (history : List StoredMsg) (m : StoredMsg) :
    (ConversationMemory.add_message max_messages history m).length ≤ max_messages := by
  unfold ConversationMemory.add_message ConversationMemory.py_slice_last
  by_cases hlen : (history ++ [m]).length > max_messages
  · simp only [hlen, if_true, show ¬ max_messages = 0 by omega, if_false]
    rw [List.length_drop]
    omega
  · simp only [hlen, if_false]
    omega

/-- Helper for C7: the newly added message is always the most recent
stored turn (for a positive cap). -/
theorem add_message_getLast (max_messages : Nat) (h : 1 ≤ max_messages)
    (history : List StoredMsg) (m : StoredMsg) :
    (ConversationMemory.add_message max_messages history m).getLast? = some m := by
  unfold ConversationMemory.add_message ConversationMemory.py_slice_last
  by_cases hlen : (history ++ [m]).length > max_messages
  · simp only [hlen, if_true, show ¬ max_messages = 0 by omega, if_false]
    rw [List.drop_append_of_le_length (by simp at hlen ⊢; omega)]
    exact List.getLast?_concat _
  · simp only [hlen, if_false]
    exact List.getLast?_concat _

/-- C7: for a positive cap (the constructor default is 20), every
`add_message` keeps the stored history within the cap and keeps the new
message as the most recent turn, and any sequence of adds starting from
the empty history stays within the cap. -/
theorem C7_conversation_memory_cap (max_messages : Nat) (h : 1 ≤ max_messages) :
    (∀ (history : List StoredMsg) (m : StoredMsg),
      (ConversationMemory.add_message max_messages history m).length ≤ max_messages ∧
      (ConversationMemory.add_message max_messages history m).getLast? = some m) ∧
    (∀ msgs : List StoredMsg,
      (msgs.foldl (ConversationMemory.add_message max_messages) []).length ≤
        max_messages) := by
  constructor
  · intro history m
    exact ⟨add_message_length_le max_messages h history m,
      add_message_getLast max_messages h history m⟩
  · have step : ∀ (msgs init : List StoredMsg), init.length ≤ max_messages →
        (msgs.foldl (ConversationMemory.add_message max_messages) init).length ≤
          max_messages := by
      intro msgs
      induction msgs with
      | nil => intro init h0; simpa using h0
      | cons x xs ih =>
        intro init h0
        simp only [List.foldl_cons]
        exact ih _ (add_message_length_le max_messages h init x)
    intro msgs
    exact step msgs [] (by simp)

/-- Witness for C7 at the default cap of 20: adding a message to a full
20-message history keeps the length at most 20 and retains the newest. -/
theorem C7_conversation_memory_cap_witness :
    (ConversationMemory.add_message 20
        (List.replicate 20 ⟨"user", "q", 0⟩) ⟨"assistant", "a", 1⟩).length ≤ 20 ∧
    (ConversationMemory.add_message 20
        (List.replicate 20 ⟨"user", "q", 0⟩) ⟨"assistant", "a", 1⟩).getLast? =
      some ⟨"assistant", "a", 1⟩ :=
  (C7_conversation_memory_cap 20 (by decide)).1
    (List.replicate 20 ⟨"user", "q", 0⟩) ⟨"assistant", "a", 1⟩

/-- C3: a cache-backend failure is absorbed: the service-layer wrappers
turn a raised error into a miss (`None`) or `False` instead of
propagating, the Redis read itself absorbs backend and decode errors,
and a realtime read whose cache lookup misses or fails still returns the
provider list (possibly empty). -/
theorem C3_cache_failure_is_miss (env : StockService.RealtimeEnv)
    (codes : Option (List String))
    (hmiss : BaseService._get_from_cache env.cache_result = none) :
    (StockService.get_realtime_quotes env codes true).1 = env.provider_data ∧
    (∀ e : String,
      BaseService._get_from_cache (α := List QuoteRec) (Except.error e) = none) ∧
    (∀ (e : String) (parse : String → Except String (List QuoteRec)),
      RedisCache.get (Except.error e) parse = none) ∧
    (∀ e : String, BaseService._set_to_cache (Except.error e) = false ∧
      BaseService._delete_from_cache (Except.error e) = false) := by
  refine ⟨?_, fun e => rfl, fun e parse => rfl, fun e => ⟨rfl, rfl⟩⟩
  unfold StockService.get_realtime_quotes
  rw [if_pos rfl] at *
  simp only [hmiss]
  cases hd : env.provider_data <;> simp [hd]

/-- Witness for C3: with the cache backend down (its read raises), the
realtime read still returns the provider batch. -/
theorem C3_cache_failure_is_miss_witness :
    (StockService.get_realtime_quotes
        ⟨Except.error "connection refused", [⟨100, "000001", "A", 10, 12, 9, 11, 5⟩],
          false⟩ none true).1 =
      [⟨100, "000001", "A", 10, 12, 9, 11, 5⟩] :=
  (C3_cache_failure_is_miss
    ⟨Except.error "connection refused", [⟨100, "000001", "A", 10, 12, 9, 11, 5⟩],
      false⟩ none rfl).1

/-- C9: when the provider returns data and the call reaches the fetch
path (cache bypassed, missed, or failed), the trace of the realtime read
contains the cache refill, every cache refill in the trace is preceded
by the durable-save attempt, and this holds whether or not the durable
save fails. -/
theorem C9_upsert_before_cache_refill (env : StockService.RealtimeEnv)
    (codes : Option (List String)) (use_cache : Bool)
    (hmiss : use_cache = false ∨
      BaseService._get_from_cache env.cache_result = none ∨
      BaseService._get_from_cache env.cache_result = some [])
    (hdata : env.provider_data ≠ []) :
    StockService.Event.cacheSet
        (BaseService._cache_key "stock" ["realtime", StockService.realtime_arg codes]) ∈
      (StockService.get_realtime_quotes env codes use_cache).2 ∧
    StockService.Event.dbSave (!env.db_fails) ∈
      (StockService.get_realtime_quotes env codes use_cache).2 ∧
    (∀ j : Nat,
      ((StockService.get_realtime_quotes env codes use_cache).2)[j]? =
          some (StockService.Event.cacheSet
            (BaseService._cache_key "stock" ["realtime", StockService.realtime_arg codes])) →
      ∃ i : Nat, i < j ∧
        ((StockService.get_realtime_quotes env codes use_cache).2)[i]? =
          some (StockService.Event.dbSave (!env.db_fails))) := by
  obtain ⟨d, ds, hd⟩ : ∃ d ds, env.provider_data = d :: ds := by
    cases h : env.provider_data with
    | nil => exact absurd h hdata
    | cons d ds => exact ⟨d, ds, rfl⟩
  have htr : (StockService.get_realtime_quotes env codes use_cache).2 =
      (if use_cache then
        [StockService.Event.cacheGet
          (BaseService._cache_key "stock" ["realtime", StockService.realtime_arg codes])]
      else []) ++
      [StockService.Event.providerFetch, StockService.Event.dbSave (!env.db_fails),
        StockService.Event.cacheSet
          (BaseService._cache_key "stock" ["realtime", StockService.realtime_arg codes])] := by
    rcases hmiss with rfl | hm | hm
    · simp [StockService.get_realtime_quotes, hd]
    all_goals cases use_cache <;> simp [StockService.get_realtime_quotes, hd, hm]
  rw [htr]
  cases use_cache <;> simp only [Bool.false_eq_true, if_true, if_false, reduceIte]
  · refine ⟨by simp, by simp, ?_⟩
    intro j hj
    rcases j with _ | _ | _ | j <;> simp_all
    exact ⟨1, by omega, rfl⟩
  · refine ⟨by simp, by simp, ?_⟩
    intro j hj
    rcases j with _ | _ | _ | _ | j <;> simp_all
    exact ⟨2, by omega, rfl⟩

/-- Witness for C9: a concrete miss-then-fetch call whose durable write
fails still refills the cache, after the save attempt. -/
theorem C9_upsert_before_cache_refill_witness :
    StockService.Event.cacheSet "stock:realtime:all" ∈
      (StockService.get_realtime_quotes
        ⟨Except.ok none, [⟨100, "000001", "A", 10, 12, 9, 11, 5⟩], true⟩ none true).2 := by
  have h := (C9_upsert_before_cache_refill
    ⟨Except.ok none, [⟨100, "000001", "A", 10, 12, 9, 11, 5⟩], true⟩ none true
    (Or.inr (Or.inl rfl)) (by simp)).1
  simpa [BaseService._cache_key, StockService.realtime_arg,
    String.intercalate, String.intercalate.go] using h

/-- Helper for C5: when the (user_id, code) key is already present,
`add_to_watchlist` returns the table unchanged with the existing row. -/
theorem add_to_watchlist_of_find_some (wl : List WatchlistEntry)
    (user_id code : String) (name : Option String) (market : String)
    (e : WatchlistEntry) (hf : wl.find? (entryKey user_id code) = some e) :
    WatchlistRepository.add_to_watchlist wl user_id code name market = (wl, e) := by
  simp [WatchlistRepository.add_to_watchlist, hf]

/-- C5: starting from a table satisfying the unique-index invariant (at
most one row per (user_id, code)), adding the same (user_id, code) twice
is the same as adding it once — the second call returns the same entry
and changes nothing — and afterwards exactly one row carries the key. -/
theorem C5_watchlist_add_idempotent (wl : List WatchlistEntry)
    (user_id code : String) (name : Option String) (market : String)
    (hwf : WatchlistRepository.keyCount wl user_id code ≤ 1) :
    WatchlistRepository.add_to_watchlist
        (WatchlistRepository.add_to_watchlist wl user_id code name market).1
        user_id code name market =
      WatchlistRepository.add_to_watchlist wl user_id code name market ∧
    WatchlistRepository.keyCount
        (WatchlistRepository.add_to_watchlist wl user_id code name market).1
        user_id code = 1 := by
  cases hf : wl.find? (entryKey user_id code) with
  | some existing =>
    have h1 := add_to_watchlist_of_find_some wl user_id code name market existing hf
    have hpos : 0 < WatchlistRepository.keyCount wl user_id code :=
      List.countP_pos_iff.mpr
        ⟨existing, List.mem_of_find?_eq_some hf, List.find?_some hf⟩
    constructor
    · rw [h1]
      exact add_to_watchlist_of_find_some wl user_id code name market existing hf
    · rw [h1]
      show WatchlistRepository.keyCount wl user_id code = 1
      omega
  | none =>
    have h1 : WatchlistRepository.add_to_watchlist wl user_id code name market =
        (wl ++ [⟨WatchlistRepository.next_id wl, user_id, code, name, market, 0, none⟩],
          ⟨WatchlistRepository.next_id wl, user_id, code, name, market, 0, none⟩) := by
      simp [WatchlistRepository.add_to_watchlist, hf]
    have hstate : (WatchlistRepository.add_to_watchlist wl user_id code name market).1 =
        wl ++ [(WatchlistRepository.add_to_watchlist wl user_id code name market).2] := by
      rw [h1]
    have hkey : entryKey user_id code
        (WatchlistRepository.add_to_watchlist wl user_id code name market).2 = true := by
      rw [h1]
      simp [entryKey]
    have hf2 : ((WatchlistRepository.add_to_watchlist wl user_id code name market).1).find?
        (entryKey user_id code) =
        some (WatchlistRepository.add_to_watchlist wl user_id code name market).2 := by
      rw [hstate, List.find?_append, hf]
      simp [hkey]
    constructor
    · rw [add_to_watchlist_of_find_some _ user_id code name market _ hf2]
    · rw [WatchlistRepository.keyCount, hstate, List.countP_append]
      have h0 : wl.countP (entryKey user_id code) = 0 :=
        List.countP_eq_zero.mpr (List.find?_eq_none.mp hf)
      simp [h0, hkey]

/-- Witness for C5: adding the same code twice to a one-user table
leaves one row and returns it unchanged. -/
theorem C5_watchlist_add_idempotent_witness :
    WatchlistRepository.add_to_watchlist
        (WatchlistRepository.add_to_watchlist [] "default" "000001"
          (some "平安银行") "CN").1
        "default" "000001" (some "平安银行") "CN" =
      WatchlistRepository.add_to_watchlist [] "default" "000001"
        (some "平安银行") "CN" ∧
    WatchlistRepository.keyCount
        (WatchlistRepository.add_to_watchlist [] "default" "000001"
          (some "平安银行") "CN").1
        "default" "000001" = 1 :=
  C5_watchlist_add_idempotent [] "default" "000001" (some "平安银行") "CN"
    (by decide)

/-- The character data of a watchlist cache key, in unfolded form. -/
theorem watchlist_cache_key_data (u m : String) :
    (StockService.watchlist_cache_key u m).data =
      "stock:watchlist:".data ++ u.data ++ ":".data ++ m.data := by
  simp [StockService.watchlist_cache_key, BaseService._cache_key,
    String.intercalate, String.intercalate.go, String.data_append]

/-- Watchlist cache keys are injective in (user, market) over the four
market scopes the service uses. -/
theorem watchlist_cache_key_inj (u u' m m' : String)
    (hm : m ∈ ["all", "CN", "HK", "US"]) (hm' : m' ∈ ["all", "CN", "HK", "US"])
    (h : StockService.watchlist_cache_key u m = StockService.watchlist_cache_key u' m') :
    u = u' ∧ m = m' := by
  have hd := congrArg String.data h
  rw [watchlist_cache_key_data, watchlist_cache_key_data] at hd
  fin_cases hm <;> fin_cases hm' <;>
    first
    | (refine ⟨String.ext ?_, rfl⟩
       simp at hd
       exact hd)
    | (exfalso
       have h2 := congrArg (fun l => l.reverse.head?) hd
       simp [List.reverse_append] at h2)

/-- Deleting a key makes a later read of that key miss. -/
theorem CacheStore.get_del_self (c : Cache) (k : String) :
    CacheStore.get (CacheStore.del c k) k = none := by
  have hnone : (CacheStore.del c k).find? (fun kv => kv.1 == k) = none := by
    rw [List.find?_eq_none]
    intro kv hkv
    have hq := (List.mem_filter.mp hkv).2
    simpa using hq
  simp [CacheStore.get, hnone]

/-- Deleting a key leaves reads of every other key unchanged. -/
theorem CacheStore.get_del_ne (c : Cache) (k k' : String) (h : k' ≠ k) :
    CacheStore.get (CacheStore.del c k) k' = CacheStore.get c k' := by
  induction c with
  | nil => rfl
  | cons kv c ih =>
    have hdel : CacheStore.del (kv :: c) k =
        if kv.1 = k then CacheStore.del c k else kv :: CacheStore.del c k := by
      by_cases hk : kv.1 = k <;> simp [CacheStore.del, List.filter_cons, hk]
    by_cases hk : kv.1 = k
    · rw [hdel, if_pos hk, ih]
      unfold CacheStore.get
      rw [List.find?_cons_of_neg]
      simp [hk]
      exact fun hh => h hh.symm
    · rw [hdel, if_neg hk]
      unfold CacheStore.get
      by_cases hp : kv.1 = k'
      · rw [List.find?_cons_of_pos _ (by simp [hp]), List.find?_cons_of_pos _ (by simp [hp])]
      · rw [List.find?_cons_of_neg _ (by simp [hp]), List.find?_cons_of_neg _ (by simp [hp])]
        simpa [CacheStore.get] using ih

/-- After `_clear_watchlist_cache`, all four market-scoped keys of the
user miss. -/
theorem clear_watchlist_cache_get_none (c : Cache) (u m : String)
    (hm : m ∈ ["all", "CN", "HK", "US"]) :
    CacheStore.get (StockService._clear_watchlist_cache c u)
      (StockService.watchlist_cache_key u m) = none := by
  have hne : ∀ m1 m2 : String, m1 ∈ ["all", "CN", "HK", "US"] →
      m2 ∈ ["all", "CN", "HK", "US"] → m1 ≠ m2 →
      StockService.watchlist_cache_key u m1 ≠ StockService.watchlist_cache_key u m2 :=
    fun m1 m2 h1 h2 hne12 he => hne12 (watchlist_cache_key_inj u u m1 m2 h1 h2 he).2
  unfold StockService._clear_watchlist_cache
  fin_cases hm
  · rw [CacheStore.get_del_ne _ _ _ (hne "all" "US" (by simp) (by simp) (by decide)),
      CacheStore.get_del_ne _ _ _ (hne "all" "HK" (by simp) (by simp) (by decide)),
      CacheStore.get_del_ne _ _ _ (hne "all" "CN" (by simp) (by simp) (by decide))]
    exact CacheStore.get_del_self c _
  · rw [CacheStore.get_del_ne _ _ _ (hne "CN" "US" (by simp) (by simp) (by decide)),
      CacheStore.get_del_ne _ _ _ (hne "CN" "HK" (by simp) (by simp) (by decide))]
    exact CacheStore.get_del_self _ _
  · rw [CacheStore.get_del_ne _ _ _ (hne "HK" "US" (by simp) (by simp) (by decide))]
    exact CacheStore.get_del_self _ _
  · exact CacheStore.get_del_self _ _

/-- The invalidation `_clear_watchlist_cache` touches nothing but the four keys of the
given user. -/
theorem clear_watchlist_cache_get_other (c : Cache) (u k : String)
    (hk : ∀ m ∈ ["all", "CN", "HK", "US"], k ≠ StockService.watchlist_cache_key u m) :
    CacheStore.get (StockService._clear_watchlist_cache c u) k = CacheStore.get c k := by
  unfold StockService._clear_watchlist_cache
  rw [CacheStore.get_del_ne _ _ _ (hk "US" (by simp)),
    CacheStore.get_del_ne _ _ _ (hk "HK" (by simp)),
    CacheStore.get_del_ne _ _ _ (hk "CN" (by simp)),
    CacheStore.get_del_ne _ _ _ (hk "all" (by simp))]

/-- C6: after a service-level watchlist add or remove, each of the four
market-scoped watchlist cache keys of that user reads as a miss, so the
next `get_watchlist` cannot be served from a pre-mutation entry; any key
other than those four — in particular any watchlist key of a different
user — reads exactly as before the mutation. -/
theorem C6_watchlist_mutation_invalidates_cache (st : StockService.ServiceState)
    (code user_id : String) (name : Option String) (market : String) :
    (∀ m ∈ ["all", "CN", "HK", "US"],
      CacheStore.get
          ((StockService.add_to_watchlist st code user_id name market).1).cache
          (StockService.watchlist_cache_key user_id m) = none ∧
      CacheStore.get
          ((StockService.remove_from_watchlist st code user_id).1).cache
          (StockService.watchlist_cache_key user_id m) = none) ∧
    (∀ k : String,
      (∀ m ∈ ["all", "CN", "HK", "US"], k ≠ StockService.watchlist_cache_key user_id m) →
      CacheStore.get
          ((StockService.add_to_watchlist st code user_id name market).1).cache k =
        CacheStore.get st.cache k ∧
      CacheStore.get
          ((StockService.remove_from_watchlist st code user_id).1).cache k =
        CacheStore.get st.cache k) ∧
    (∀ u' m' : String, u' ≠ user_id → m' ∈ ["all", "CN", "HK", "US"] →
      CacheStore.get
          ((StockService.add_to_watchlist st code user_id name market).1).cache
          (StockService.watchlist_cache_key u' m') =
        CacheStore.get st.cache (StockService.watchlist_cache_key u' m') ∧
      CacheStore.get
          ((StockService.remove_from_watchlist st code user_id).1).cache
          (StockService.watchlist_cache_key u' m') =
        CacheStore.get st.cache (StockService.watchlist_cache_key u' m')) := by
  have hadd : ((StockService.add_to_watchlist st code user_id name market).1).cache =
      StockService._clear_watchlist_cache st.cache user_id := rfl
  have hrem : ((StockService.remove_from_watchlist st code user_id).1).cache =
      StockService._clear_watchlist_cache st.cache user_id := rfl
  refine ⟨?_, ?_, ?_⟩
  · intro m hm
    rw [hadd, hrem]
    exact ⟨clear_watchlist_cache_get_none st.cache user_id m hm,
      clear_watchlist_cache_get_none st.cache user_id m hm⟩
  · intro k hk
    rw [hadd, hrem]
    exact ⟨clear_watchlist_cache_get_other st.cache user_id k hk,
      clear_watchlist_cache_get_other st.cache user_id k hk⟩
  · intro u' m' hu hm'
    have hk : ∀ m ∈ ["all", "CN", "HK", "US"],
        StockService.watchlist_cache_key u' m' ≠
          StockService.watchlist_cache_key user_id m := by
      intro m hm he
      exact hu (watchlist_cache_key_inj u' user_id m' m hm' hm he).1
    rw [hadd, hrem]
    exact ⟨clear_watchlist_cache_get_other st.cache user_id _ hk,
      clear_watchlist_cache_get_other st.cache user_id _ hk⟩

/-- Witness for C6 on a concrete state: the `all` key of the mutated
user is invalidated while the watchlist key of another user and a foreign
service key survive an add unchanged. -/
theorem C6_watchlist_mutation_invalidates_cache_witness :
    CacheStore.get
        ((StockService.add_to_watchlist
            ⟨[], [(StockService.watchlist_cache_key "default" "all", "v1"),
              (StockService.watchlist_cache_key "alice" "all", "v2"),
              ("fund:realtime:all", "v3")]⟩
            "000001" "default" (some "平安银行") "CN").1).cache
        (StockService.watchlist_cache_key "default" "all") = none ∧
    CacheStore.get
        ((StockService.add_to_watchlist
            ⟨[], [(StockService.watchlist_cache_key "default" "all", "v1"),
              (StockService.watchlist_cache_key "alice" "all", "v2"),
              ("fund:realtime:all", "v3")]⟩
            "000001" "default" (some "平安银行") "CN").1).cache
        (StockService.watchlist_cache_key "alice" "all") =
      some "v2" ∧
    CacheStore.get
        ((StockService.add_to_watchlist
            ⟨[], [(StockService.watchlist_cache_key "default" "all", "v1"),
              (StockService.watchlist_cache_key "alice" "all", "v2"),
              ("fund:realtime:all", "v3")]⟩
            "000001" "default" (some "平安银行") "CN").1).cache
        "fund:realtime:all" =
      some "v3" := by
  have h := C6_watchlist_mutation_invalidates_cache
    ⟨[], [(StockService.watchlist_cache_key "default" "all", "v1"),
      (StockService.watchlist_cache_key "alice" "all", "v2"),
      ("fund:realtime:all", "v3")]⟩
    "000001" "default" (some "平安银行") "CN"
  refine ⟨(h.1 "all" (by simp)).1, ?_, ?_⟩
  · rw [(h.2.2 "alice" "all" (by decide) (by simp)).1]
    simp [CacheStore.get, StockService.watchlist_cache_key, BaseService._cache_key,
      String.intercalate, String.intercalate.go]
  · rw [(h.2.1 "fund:realtime:all" (by decide)).1]
    simp [CacheStore.get, StockService.watchlist_cache_key, BaseService._cache_key,
      String.intercalate, String.intercalate.go]

/-- Primary-key equality is reflexive. -/
theorem sameKey_refl (r : QuoteRec) : sameKey r r = true := by
  simp [sameKey]

/-- Primary-key equality is symmetric. -/
theorem sameKey_comm (a b : QuoteRec) : sameKey a b = sameKey b a := by
  simp only [sameKey, decide_eq_decide]
  constructor <;> exact fun h => ⟨h.1.symm, h.2.symm⟩

/-- Primary-key equality is transitive along a shared right key. -/
theorem sameKey_trans_right (x y r : QuoteRec) (h1 : sameKey x r = true)
    (h2 : sameKey y r = true) : sameKey x y = true := by
  simp only [sameKey, decide_eq_true_eq] at *
  exact ⟨h1.1.trans h2.1.symm, h1.2.trans h2.2.symm⟩

/-- The value of `List.any` depends only on the predicate restricted
to members. -/
theorem any_congr_mem {α : Type} {l : List α} {p q : α → Bool}
    (h : ∀ a ∈ l, p a = q a) : l.any p = l.any q := by
  induction l with
  | nil => rfl
  | cons a t ih =>
    simp only [List.any_cons, h a (by simp),
      ih (fun x hx => h x (List.mem_cons_of_mem a hx))]

namespace TimeSeriesRepository

/-- Upserting the same record twice is the same as upserting it once. -/
theorem save_quote_idem (st : List QuoteRec) (r : QuoteRec) :
    save_quote (save_quote st r) r = save_quote st r := by
  unfold save_quote
  by_cases h : st.any (fun s => sameKey s r)
  · rw [if_pos h]
    have hany2 : (st.map (fun s => if sameKey s r then r else s)).any
        (fun s => sameKey s r) = true := by
      rw [List.any_eq_true] at h ⊢
      obtain ⟨x, hx, hpx⟩ := h
      exact ⟨r, List.mem_map.mpr ⟨x, hx, by simp [hpx]⟩, sameKey_refl r⟩
    rw [if_pos hany2, List.map_map]
    apply List.map_congr_left
    intro a _
    by_cases ha : sameKey a r = true
    · simp [ha, sameKey_refl]
    · simp [ha]
  · rw [if_neg h]
    have hall : ∀ x ∈ st, ¬ sameKey x r = true := by simpa using h
    have hany2 : ((st ++ [r]).any (fun s => sameKey s r)) = true := by
      simp [sameKey_refl]
    rw [if_pos hany2, List.map_append]
    have h1 : st.map (fun s => if sameKey s r then r else s) = st := by
      have := List.map_congr_left (l := st)
        (f := fun s => if sameKey s r then r else s) (g := id)
        (fun a ha => by simp [hall a ha])
      simpa using this
    rw [h1]
    simp [sameKey_refl]

/-- After one upsert of `r` into a well-formed store, exactly one row
carries the key of `r`. -/
theorem keyCount_save_quote (st : List QuoteRec) (r : QuoteRec)
    (hwf : keyCount st r ≤ 1) : keyCount (save_quote st r) r = 1 := by
  unfold save_quote keyCount
  by_cases h : st.any (fun s => sameKey s r)
  · rw [if_pos h, List.countP_map]
    have he : st.countP ((fun s => sameKey s r) ∘ fun s => if sameKey s r then r else s) =
        st.countP (fun s => sameKey s r) := by
      apply List.countP_congr
      intro x _
      by_cases hx : sameKey x r = true <;> simp [hx, sameKey_refl]
    rw [he]
    have hpos : 0 < st.countP (fun s => sameKey s r) := by
      rw [List.any_eq_true] at h
      obtain ⟨x, hx, hpx⟩ := h
      exact List.countP_pos_iff.mpr ⟨x, hx, hpx⟩
    unfold keyCount at hwf
    omega
  · rw [if_neg h, List.countP_append]
    have h0 : st.countP (fun s => sameKey s r) = 0 :=
      List.countP_eq_zero.mpr (by simpa using h)
    simp [h0, sameKey_refl]

/-- Key membership after an upsert: the store now carries the key of `a`
as well as every key it had. -/
theorem hasKey_save_quote (st : List QuoteRec) (a r : QuoteRec) :
    hasKey (save_quote st a) r = (hasKey st r || sameKey a r) := by
  unfold hasKey save_quote
  by_cases h : st.any (fun s => sameKey s a)
  · rw [if_pos h, List.any_map]
    by_cases har : sameKey a r = true
    · rw [List.any_eq_true] at h
      obtain ⟨x, hx, hpx⟩ := h
      have hw : st.any ((fun s => sameKey s r) ∘ fun s => if sameKey s a then a else s) =
          true := by
        rw [List.any_eq_true]
        exact ⟨x, hx, by simp [Function.comp, hpx, har]⟩
      rw [hw, har]
      simp
    · have hc : ∀ x ∈ st,
          ((fun s => sameKey s r) ∘ fun s => if sameKey s a then a else s) x =
            (fun s => sameKey s r) x := by
        intro x _
        by_cases hxa : sameKey x a = true
        · simp only [Function.comp, hxa, if_true]
          by_cases hxr : sameKey x r = true
          · exfalso
            apply har
            have h1 : sameKey a x = true := by rw [sameKey_comm]; exact hxa
            have h2 : sameKey r x = true := by rw [sameKey_comm]; exact hxr
            exact sameKey_trans_right a r x h1 h2
          · have h1 : sameKey a r = false := by simpa using har
            have h2 : sameKey x r = false := by simpa using hxr
            rw [h1, h2]
        · simp [Function.comp, hxa]
      rw [any_congr_mem hc]
      have h1 : sameKey a r = false := by simpa using har
      rw [h1]
      simp
  · rw [if_neg h, List.any_append]
    simp

/-- Key membership is monotone along a whole batch of upserts. -/
theorem hasKey_save_quotes (l : List QuoteRec) (st : List QuoteRec) (r : QuoteRec) :
    hasKey (l.foldl save_quote st) r =
      (hasKey st r || l.any (fun a => sameKey a r)) := by
  induction l generalizing st with
  | nil => simp
  | cons a t ih =>
    simp only [List.foldl_cons, List.any_cons]
    rw [ih, hasKey_save_quote]
    cases hasKey st r <;> cases sameKey a r <;> simp

/-- After upserting `r`, every row carrying the key of `r` is `r` itself. -/
theorem onlyKey_save_quote_self (st : List QuoteRec) (r : QuoteRec) :
    ∀ x ∈ save_quote st r, sameKey x r = true → x = r := by
  intro x hx hk
  unfold save_quote at hx
  by_cases h : st.any (fun s => sameKey s r)
  · rw [if_pos h] at hx
    obtain ⟨s, hs, hfs⟩ := List.mem_map.mp hx
    by_cases hsr : sameKey s r = true
    · rw [if_pos hsr] at hfs
      exact hfs.symm
    · rw [if_neg hsr] at hfs
      exact absurd (hfs ▸ hk) hsr
  · rw [if_neg h] at hx
    rcases List.mem_append.mp hx with hx1 | hx2
    · have hall : ∀ y ∈ st, ¬ sameKey y r = true := by simpa using h
      exact absurd hk (hall x hx1)
    · simpa using hx2

/-- Upserting a record with a different key preserves the property that
the key of `r` identifies the row `r`. -/
theorem onlyKey_save_quote_other (st : List QuoteRec) (a r : QuoteRec)
    (hP : ∀ x ∈ st, sameKey x r = true → x = r) (har : sameKey a r = false) :
    ∀ x ∈ save_quote st a, sameKey x r = true → x = r := by
  intro x hx hk
  unfold save_quote at hx
  by_cases h : st.any (fun s => sameKey s a)
  · rw [if_pos h] at hx
    obtain ⟨s, hs, hfs⟩ := List.mem_map.mp hx
    by_cases hsa : sameKey s a = true
    · rw [if_pos hsa] at hfs
      rw [← hfs, har] at hk
      cases hk
    · rw [if_neg hsa] at hfs
      exact hP x (hfs ▸ hs) hk
  · rw [if_neg h] at hx
    rcases List.mem_append.mp hx with hx1 | hx2
    · exact hP x hx1 hk
    · have hxa : x = a := by simpa using hx2
      rw [hxa, har] at hk
      cases hk

/-- The single-key property survives a batch of upserts with other keys. -/
theorem onlyKey_save_quotes_other (l : List QuoteRec) (st : List QuoteRec)
    (r : QuoteRec) (hP : ∀ x ∈ st, sameKey x r = true → x = r)
    (hl : ∀ a ∈ l, sameKey a r = false) :
    ∀ x ∈ l.foldl save_quote st, sameKey x r = true → x = r := by
  induction l generalizing st with
  | nil => simpa using hP
  | cons a t ih =>
    simp only [List.foldl_cons]
    exact ih (save_quote st a)
      (onlyKey_save_quote_other st a r hP (hl a (by simp)))
      (fun b hb => hl b (List.mem_cons_of_mem a hb))

/-- Upserting `r` into a store that already holds `r` (and nothing else
at its key) changes nothing. -/
theorem save_quote_noop (st : List QuoteRec) (r : QuoteRec)
    (hhas : hasKey st r = true) (hP : ∀ x ∈ st, sameKey x r = true → x = r) :
    save_quote st r = st := by
  unfold save_quote
  rw [if_pos (show (st.any fun s => sameKey s r) = true from hhas)]
  conv_rhs => rw [← List.map_id st]
  apply List.map_congr_left
  intro a ha
  by_cases hk : sameKey a r = true
  · simp [hk, hP a ha hk]
  · simp [hk]

/-- Re-ingesting a batch into a store that already holds exactly its
rows changes nothing. -/
theorem save_quotes_noop (l : List QuoteRec) (st : List QuoteRec)
    (h : ∀ r ∈ l, hasKey st r = true ∧ ∀ x ∈ st, sameKey x r = true → x = r) :
    l.foldl save_quote st = st := by
  induction l with
  | nil => rfl
  | cons a t ih =>
    simp only [List.foldl_cons]
    rw [save_quote_noop st a (h a (by simp)).1 (h a (by simp)).2]
    exact ih (fun r hr => h r (List.mem_cons_of_mem a hr))

/-- A first ingestion of a duplicate-free batch leaves the store holding,
at each key of the batch, exactly the row of the batch. -/
theorem save_quotes_establishes (l : List QuoteRec) (st : List QuoteRec)
    (hl : KeysNodup l) :
    ∀ r ∈ l, hasKey (l.foldl save_quote st) r = true ∧
      ∀ x ∈ l.foldl save_quote st, sameKey x r = true → x = r := by
  induction l generalizing st with
  | nil => simp
  | cons a t ih =>
    have hpair := List.pairwise_cons.mp hl
    intro r hr
    simp only [List.foldl_cons]
    rcases List.mem_cons.mp hr with rfl | hrt
    · constructor
      · rw [hasKey_save_quotes, hasKey_save_quote, sameKey_refl]
        simp
      · apply onlyKey_save_quotes_other t (save_quote st r) r
          (onlyKey_save_quote_self st r)
        intro b hb
        rw [sameKey_comm]
        exact hpair.1 b hb
    · exact ih (save_quote st a) hpair.2 r hrt

end TimeSeriesRepository

/-- C1: upserting the same quote record twice equals upserting it once
(so `get_latest` is unchanged by the second upsert), a well-formed store
ends up with exactly one row at the (code, time) key of the record, and
re-ingesting a duplicate-key-free batch through `save_quotes` leaves the
stored state unchanged. -/
theorem C1_upsert_idempotent (st : List QuoteRec) (r : QuoteRec)
    (l : List QuoteRec) (hwf : TimeSeriesRepository.keyCount st r ≤ 1)
    (hl : TimeSeriesRepository.KeysNodup l) :
    TimeSeriesRepository.save_quote (TimeSeriesRepository.save_quote st r) r =
      TimeSeriesRepository.save_quote st r ∧
    TimeSeriesRepository.keyCount
        (TimeSeriesRepository.save_quote (TimeSeriesRepository.save_quote st r) r)
        r = 1 ∧
    TimeSeriesRepository.get_latest
        (TimeSeriesRepository.save_quote (TimeSeriesRepository.save_quote st r) r)
        r.code =
      TimeSeriesRepository.get_latest (TimeSeriesRepository.save_quote st r) r.code ∧
    (TimeSeriesRepository.save_quotes
        (TimeSeriesRepository.save_quotes st l).1 l).1 =
      (TimeSeriesRepository.save_quotes st l).1 := by
  have hidem := TimeSeriesRepository.save_quote_idem st r
  refine ⟨hidem, ?_, by rw [hidem], ?_⟩
  · rw [hidem]
    exact TimeSeriesRepository.keyCount_save_quote st r hwf
  · show l.foldl TimeSeriesRepository.save_quote
        (l.foldl TimeSeriesRepository.save_quote st) =
      l.foldl TimeSeriesRepository.save_quote st
    exact TimeSeriesRepository.save_quotes_noop l _
      (TimeSeriesRepository.save_quotes_establishes l st hl)

/-- Witness for C1 on a concrete store and batch. -/
theorem C1_upsert_idempotent_witness :
    TimeSeriesRepository.save_quote
        (TimeSeriesRepository.save_quote [⟨40, "600000", "B", 1, 2, 1, 2, 3⟩]
          ⟨100, "000001", "A", 10, 12, 9, 11, 5⟩)
        ⟨100, "000001", "A", 10, 12, 9, 11, 5⟩ =
      TimeSeriesRepository.save_quote [⟨40, "600000", "B", 1, 2, 1, 2, 3⟩]
        ⟨100, "000001", "A", 10, 12, 9, 11, 5⟩ ∧
    TimeSeriesRepository.keyCount
        (TimeSeriesRepository.save_quote
          (TimeSeriesRepository.save_quote [⟨40, "600000", "B", 1, 2, 1, 2, 3⟩]
            ⟨100, "000001", "A", 10, 12, 9, 11, 5⟩)
          ⟨100, "000001", "A", 10, 12, 9, 11, 5⟩)
        ⟨100, "000001", "A", 10, 12, 9, 11, 5⟩ = 1 ∧
    TimeSeriesRepository.get_latest
        (TimeSeriesRepository.save_quote
          (TimeSeriesRepository.save_quote [⟨40, "600000", "B", 1, 2, 1, 2, 3⟩]
            ⟨100, "000001", "A", 10, 12, 9, 11, 5⟩)
          ⟨100, "000001", "A", 10, 12, 9, 11, 5⟩)
        "000001" =
      TimeSeriesRepository.get_latest
        (TimeSeriesRepository.save_quote [⟨40, "600000", "B", 1, 2, 1, 2, 3⟩]
          ⟨100, "000001", "A", 10, 12, 9, 11, 5⟩)
        "000001" ∧
    (TimeSeriesRepository.save_quotes
        (TimeSeriesRepository.save_quotes [⟨40, "600000", "B", 1, 2, 1, 2, 3⟩]
          [⟨100, "000001", "A", 10, 12, 9, 11, 5⟩,
            ⟨160, "000001", "A", 11, 15, 10, 14, 7⟩]).1
        [⟨100, "000001", "A", 10, 12, 9, 11, 5⟩,
          ⟨160, "000001", "A", 11, 15, 10, 14, 7⟩]).1 =
      (TimeSeriesRepository.save_quotes [⟨40, "600000", "B", 1, 2, 1, 2, 3⟩]
        [⟨100, "000001", "A", 10, 12, 9, 11, 5⟩,
          ⟨160, "000001", "A", 11, 15, 10, 14, 7⟩]).1 :=
  C1_upsert_idempotent [⟨40, "600000", "B", 1, 2, 1, 2, 3⟩]
    ⟨100, "000001", "A", 10, 12, 9, 11, 5⟩
    [⟨100, "000001", "A", 10, 12, 9, 11, 5⟩,
      ⟨160, "000001", "A", 11, 15, 10, 14, 7⟩]
    (by decide)
    (by simp [TimeSeriesRepository.KeysNodup, List.pairwise_cons, sameKey])

/-- The agent loop never makes more LLM calls than it has fuel. -/
theorem chat_loop_calls_le (llm : List Msg → LLMResult) (tools : List String)
    (run_tool : String → String → Except String String) (fuel : Nat)
    (messages : List Msg) :
    (InvestmentAgent.chat_loop llm tools run_tool fuel messages).2 ≤ fuel := by
  induction fuel generalizing messages with
  | zero => simp [InvestmentAgent.chat_loop]
  | succ n ih =>
    unfold InvestmentAgent.chat_loop
    cases llm messages with
    | failure e => simp
    | message content tool_calls =>
      cases tool_calls with
      | nil => simp
      | cons tc tcs =>
        simp only []
        have := ih (messages ++ [Msg.assistant content (tc :: tcs)] ++
          (tc :: tcs).map
            (fun t => Msg.tool t.id
              (InvestmentAgent._execute_tool tools run_tool t.name t.arguments)))
        omega

/-- If every LLM response requests tool calls, the loop exhausts its fuel
and returns the initial empty final response. -/
theorem chat_loop_all_tools (llm : List Msg → LLMResult) (tools : List String)
    (run_tool : String → String → Except String String)
    (halways : ∀ msgs : List Msg, ∃ content tc tcs,
      llm msgs = LLMResult.message content (tc :: tcs)) (fuel : Nat)
    (messages : List Msg) :
    InvestmentAgent.chat_loop llm tools run_tool fuel messages = ("", fuel) := by
  induction fuel generalizing messages with
  | zero => rfl
  | succ n ih =>
    obtain ⟨content, tc, tcs, hmsg⟩ := halways messages
    unfold InvestmentAgent.chat_loop
    rw [hmsg]
    simp only [ih]

/-- C4 (amended): for every stubbed LLM, the chat turn makes at most
`max_iterations` (5) LLM calls and always produces a (string) response;
when every round requests tool calls, the loop exhausts the bound and the
returned final answer is the empty string — the initial value of
`final_response` — rather than the content of the last LLM output. -/
theorem C4_agent_loop_bounded (llm : List Msg → LLMResult) (tools : List String)
    (run_tool : String → String → Except String String) (max_messages : Nat)
    (history : List StoredMsg) (system_prompt user_message : String) (now : Nat) :
    (InvestmentAgent.chat llm tools run_tool max_messages history system_prompt
        user_message now).2 ≤ InvestmentAgent.max_iterations ∧
    ((∀ msgs : List Msg, ∃ content tc tcs,
        llm msgs = LLMResult.message content (tc :: tcs)) →
      (InvestmentAgent.chat llm tools run_tool max_messages history system_prompt
          user_message now).1 = "") := by
  constructor
  · exact chat_loop_calls_le llm tools run_tool InvestmentAgent.max_iterations _
  · intro halways
    unfold InvestmentAgent.chat
    rw [chat_loop_all_tools llm tools run_tool halways]

/-- Counterexample for C4 as stated: an LLM stub that always asks for a
tool call and always carries the non-empty content `市场分析` yields the
final answer `""` after 5 calls — not the last LLM output. -/
theorem C4_agent_loop_counterexample :
    InvestmentAgent.chat
        (fun _ => LLMResult.message "市场分析" [⟨"call1", "get_news", ""⟩])
        ["get_news", "web_search"] (fun _ _ => Except.ok "ok") 20 []
        "prompt" "请分析市场" 0 =
      ("", 5) ∧
    ("" : String) ≠ "市场分析" := by
  constructor
  · unfold InvestmentAgent.chat
    rw [chat_loop_all_tools _ _ _
      (fun _ => ⟨"市场分析", ⟨"call1", "get_news", ""⟩, [], rfl⟩)]
    rfl
  · decide

/-- Witness for C4 (amended) at the stub of the counterexample. -/
theorem C4_agent_loop_bounded_witness :
    (InvestmentAgent.chat
        (fun _ => LLMResult.message "市场分析建议" [⟨"c1", "web_search", ""⟩])
        ["get_news", "web_search"] (fun _ _ => Except.ok "ok") 20 []
        "prompt" "后市如何" 0).2 ≤ InvestmentAgent.max_iterations ∧
    (InvestmentAgent.chat
        (fun _ => LLMResult.message "市场分析建议" [⟨"c1", "web_search", ""⟩])
        ["get_news", "web_search"] (fun _ _ => Except.ok "ok") 20 []
        "prompt" "后市如何" 0).1 = "" :=
  ⟨(C4_agent_loop_bounded _ _ _ _ _ _ _ _).1,
   (C4_agent_loop_bounded _ _ _ _ _ _ _ _).2
     (fun _ => ⟨"市场分析建议", ⟨"c1", "web_search", ""⟩, [], rfl⟩)⟩

namespace TimeSeriesRepository

/-- An Int-valued `foldl max` stays among its inputs. -/
theorem foldl_max_mem (l : List Int) (v : Int) : l.foldl max v ∈ v :: l := by
  induction l generalizing v with
  | nil => simp
  | cons a t ih =>
    simp only [List.foldl_cons]
    rcases List.mem_cons.mp (ih (max v a)) with h1 | h2
    · rw [h1]
      rcases max_choice v a with hm | hm <;> rw [hm] <;> simp
    · simp [h2]

/-- An Int-valued `foldl max` bounds its seed and all its inputs. -/
theorem foldl_max_le (l : List Int) (v : Int) :
    v ≤ l.foldl max v ∧ ∀ x ∈ l, x ≤ l.foldl max v := by
  induction l generalizing v with
  | nil => simp
  | cons a t ih =>
    simp only [List.foldl_cons]
    obtain ⟨h1, h2⟩ := ih (max v a)
    refine ⟨le_trans (le_max_left v a) h1, ?_⟩
    intro x hx
    rcases List.mem_cons.mp hx with rfl | hxt
    · exact le_trans (le_max_right v x) h1
    · exact h2 x hxt

/-- An Int-valued `foldl min` stays among its inputs. -/
theorem foldl_min_mem (l : List Int) (v : Int) : l.foldl min v ∈ v :: l := by
  induction l generalizing v with
  | nil => simp
  | cons a t ih =>
    simp only [List.foldl_cons]
    rcases List.mem_cons.mp (ih (min v a)) with h1 | h2
    · rw [h1]
      rcases min_choice v a with hm | hm <;> rw [hm] <;> simp
    · simp [h2]

/-- An Int-valued `foldl min` is below its seed and all its inputs. -/
theorem foldl_min_le (l : List Int) (v : Int) :
    l.foldl min v ≤ v ∧ ∀ x ∈ l, l.foldl min v ≤ x := by
  induction l generalizing v with
  | nil => simp
  | cons a t ih =>
    simp only [List.foldl_cons]
    obtain ⟨h1, h2⟩ := ih (min v a)
    refine ⟨le_trans h1 (min_le_left v a), ?_⟩
    intro x hx
    rcases List.mem_cons.mp hx with rfl | hxt
    · exact le_trans h1 (min_le_right v x)
    · exact h2 x hxt

/-- The earliest-by-time fold of `aggGroup` picks one of the rows. -/
theorem foldl_firstByTime_mem (rest : List QuoteRec) (r0 : QuoteRec) :
    rest.foldl (fun acc r => if r.time < acc.time then r else acc) r0 ∈ r0 :: rest := by
  induction rest generalizing r0 with
  | nil => simp
  | cons a t ih =>
    simp only [List.foldl_cons]
    by_cases hc : a.time < r0.time
    · rw [if_pos hc]
      rcases List.mem_cons.mp (ih a) with h1 | h2
      · rw [h1]; simp
      · simp [h2]
    · rw [if_neg hc]
      rcases List.mem_cons.mp (ih r0) with h1 | h2
      · rw [h1]; simp
      · simp [h2]

/-- The earliest-by-time fold of `aggGroup` has minimal time. -/
theorem foldl_firstByTime_le (rest : List QuoteRec) (r0 : QuoteRec) :
    (rest.foldl (fun acc r => if r.time < acc.time then r else acc) r0).time ≤ r0.time ∧
    ∀ x ∈ rest,
      (rest.foldl (fun acc r => if r.time < acc.time then r else acc) r0).time ≤ x.time := by
  induction rest generalizing r0 with
  | nil => simp
  | cons a t ih =>
    simp only [List.foldl_cons]
    obtain ⟨h1, h2⟩ := ih (if a.time < r0.time then a else r0)
    constructor
    · refine le_trans h1 ?_
      by_cases hc : a.time < r0.time <;> simp [hc] <;> omega
    · intro x hx
      rcases List.mem_cons.mp hx with rfl | hxt
      · refine le_trans h1 ?_
        by_cases hc : x.time < r0.time <;> simp [hc] <;> omega
      · exact h2 x hxt

/-- The latest-by-time fold of `aggGroup` picks one of the rows. -/
theorem foldl_lastByTime_mem (rest : List QuoteRec) (r0 : QuoteRec) :
    rest.foldl (fun acc r => if acc.time < r.time then r else acc) r0 ∈ r0 :: rest := by
  induction rest generalizing r0 with
  | nil => simp
  | cons a t ih =>
    simp only [List.foldl_cons]
    by_cases hc : r0.time < a.time
    · rw [if_pos hc]
      rcases List.mem_cons.mp (ih a) with h1 | h2
      · rw [h1]; simp
      · simp [h2]
    · rw [if_neg hc]
      rcases List.mem_cons.mp (ih r0) with h1 | h2
      · rw [h1]; simp
      · simp [h2]

/-- The latest-by-time fold of `aggGroup` has maximal time. -/
theorem foldl_lastByTime_le (rest : List QuoteRec) (r0 : QuoteRec) :
    r0.time ≤ (rest.foldl (fun acc r => if acc.time < r.time then r else acc) r0).time ∧
    ∀ x ∈ rest,
      x.time ≤ (rest.foldl (fun acc r => if acc.time < r.time then r else acc) r0).time := by
  induction rest generalizing r0 with
  | nil => simp
  | cons a t ih =>
    simp only [List.foldl_cons]
    obtain ⟨h1, h2⟩ := ih (if r0.time < a.time then a else r0)
    constructor
    · refine le_trans ?_ h1
      by_cases hc : r0.time < a.time <;> simp [hc] <;> omega
    · intro x hx
      rcases List.mem_cons.mp hx with rfl | hxt
      · refine le_trans ?_ h1
        by_cases hc : r0.time < x.time <;> simp [hc] <;> omega
      · exact h2 x hxt

/-- The volume fold of `aggGroup` is the plain sum. -/
theorem foldl_volume_sum (rest : List QuoteRec) (v : Int) :
    rest.foldl (fun acc r => acc + r.volume) v = v + (rest.map (fun r => r.volume)).sum := by
  induction rest generalizing v with
  | nil => simp
  | cons a t ih =>
    simp only [List.foldl_cons, List.map_cons, List.sum_cons]
    rw [ih]
    ring

end TimeSeriesRepository

namespace TimeSeriesRepository

/-- Every row of a bucket group carries the queried code. -/
theorem mem_bucketRows_code (store : List QuoteRec) (code : String)
    (start_time end_time w b : Nat) (x : QuoteRec)
    (hx : x ∈ bucketRows store code start_time end_time w b) : x.code = code := by
  unfold bucketRows at hx
  have hx1 := (List.mem_filter.mp hx).1
  have hx2 := (List.mem_filter.mp hx1).2
  unfold inRange at hx2
  simp only [decide_eq_true_eq] at hx2
  exact hx2.1

/-- A bucket group is a sublist of the store. -/
theorem bucketRows_sublist (store : List QuoteRec) (code : String)
    (start_time end_time w b : Nat) :
    List.Sublist (bucketRows store code start_time end_time w b) store :=
  (List.filter_sublist _).trans (List.filter_sublist _)

/-- In a well-formed store, the rows of one bucket group have pairwise
distinct times (they share the code, and (code, time) is the key). -/
theorem bucketRows_time_distinct (store : List QuoteRec) (code : String)
    (start_time end_time w b : Nat) (hwf : KeysNodup store) :
    ∀ x ∈ bucketRows store code start_time end_time w b,
      ∀ y ∈ bucketRows store code start_time end_time w b,
        x ≠ y → x.time ≠ y.time := by
  intro x hx y hy hne heqt
  have hpw : (bucketRows store code start_time end_time w b).Pairwise
      (fun a c => sameKey a c = false) :=
    List.Pairwise.sublist (bucketRows_sublist store code start_time end_time w b) hwf
  have hsymm : Symmetric (fun a c : QuoteRec => sameKey a c = false) := by
    intro a c h
    rw [sameKey_comm]
    exact h
  have hfalse : sameKey x y = false := hpw.forall hsymm hx hy hne
  have hcx := mem_bucketRows_code store code start_time end_time w b x hx
  have hcy := mem_bucketRows_code store code start_time end_time w b y hy
  rw [sameKey, decide_eq_false_iff_not] at hfalse
  exact hfalse ⟨hcx.trans hcy.symm, heqt⟩

end TimeSeriesRepository

/-- C2: in a well-formed store, every bucket row returned by
`get_by_time_bucket` satisfies the OHLC roll-up over its group: open from
the earliest-by-time row, close from the latest-by-time row, high the
maximum of highs, low the minimum of lows, volume the sum of volumes. -/
theorem C2_bucket_aggregation_ohlc (store : List QuoteRec) (code : String)
    (start_time end_time w : Nat) (hwf : TimeSeriesRepository.KeysNodup store) :
    ∀ B ∈ TimeSeriesRepository.get_by_time_bucket store code start_time end_time w,
      TimeSeriesRepository.bucketRows store code start_time end_time w B.bucket ≠ [] ∧
      (∀ f ∈ TimeSeriesRepository.bucketRows store code start_time end_time w B.bucket,
        (∀ x ∈ TimeSeriesRepository.bucketRows store code start_time end_time w B.bucket,
          f.time ≤ x.time) →
        B.«open» = f.«open») ∧
      (∀ g ∈ TimeSeriesRepository.bucketRows store code start_time end_time w B.bucket,
        (∀ x ∈ TimeSeriesRepository.bucketRows store code start_time end_time w B.bucket,
          x.time ≤ g.time) →
        B.close = g.close) ∧
      (B.high ∈ (TimeSeriesRepository.bucketRows store code start_time end_time w
          B.bucket).map (fun r => r.high) ∧
        ∀ x ∈ TimeSeriesRepository.bucketRows store code start_time end_time w B.bucket,
          x.high ≤ B.high) ∧
      (B.low ∈ (TimeSeriesRepository.bucketRows store code start_time end_time w
          B.bucket).map (fun r => r.low) ∧
        ∀ x ∈ TimeSeriesRepository.bucketRows store code start_time end_time w B.bucket,
          B.low ≤ x.low) ∧
      B.volume = ((TimeSeriesRepository.bucketRows store code start_time end_time w
          B.bucket).map (fun r => r.volume)).sum := by
  intro B hB
  unfold TimeSeriesRepository.get_by_time_bucket at hB
  simp only [List.mem_filterMap] at hB
  obtain ⟨b, hb, heq⟩ := hB
  cases hbr : (store.filter
      (TimeSeriesRepository.inRange code start_time end_time)).filter
      (fun r => TimeSeriesRepository.time_bucket w r.time == b) with
  | nil =>
    rw [hbr] at heq
    simp at heq
  | cons r0 rest =>
    rw [hbr] at heq
    simp only [Option.some.injEq] at heq
    have hBeq : B = TimeSeriesRepository.aggGroup b code r0 rest := heq.symm
    subst hBeq
    have hbrB : TimeSeriesRepository.bucketRows store code start_time end_time w
        (TimeSeriesRepository.aggGroup b code r0 rest).bucket = r0 :: rest := hbr
    have hdist := TimeSeriesRepository.bucketRows_time_distinct store code start_time
      end_time w (TimeSeriesRepository.aggGroup b code r0 rest).bucket hwf
    rw [hbrB] at hdist
    rw [hbrB]
    have hopen : (TimeSeriesRepository.aggGroup b code r0 rest).«open» =
        (rest.foldl (fun acc r => if r.time < acc.time then r else acc) r0).«open» := rfl
    have hclose : (TimeSeriesRepository.aggGroup b code r0 rest).close =
        (rest.foldl (fun acc r => if acc.time < r.time then r else acc) r0).close := rfl
    have hhigh : (TimeSeriesRepository.aggGroup b code r0 rest).high =
        (rest.map (fun r => r.high)).foldl max r0.high :=
      (List.foldl_map _ _ _ _).symm
    have hlow : (TimeSeriesRepository.aggGroup b code r0 rest).low =
        (rest.map (fun r => r.low)).foldl min r0.low :=
      (List.foldl_map _ _ _ _).symm
    refine ⟨by simp, ?_, ?_, ?_, ?_, ?_⟩
    · -- open: earliest-by-time
      intro f hf hmin
      have hmem := TimeSeriesRepository.foldl_firstByTime_mem rest r0
      obtain ⟨hs, hr⟩ := TimeSeriesRepository.foldl_firstByTime_le rest r0
      have hle : ∀ x ∈ r0 :: rest,
          (rest.foldl (fun acc r => if r.time < acc.time then r else acc) r0).time ≤
            x.time := by
        intro x hx
        rcases List.mem_cons.mp hx with rfl | hxt
        · exact hs
        · exact hr x hxt
      by_cases hfe :
          rest.foldl (fun acc r => if r.time < acc.time then r else acc) r0 = f
      · rw [hopen, hfe]
      · exact absurd (le_antisymm (hle f hf) (hmin _ hmem)) (hdist _ hmem f hf hfe)
    · -- close: latest-by-time
      intro g hg hmax
      have hmem := TimeSeriesRepository.foldl_lastByTime_mem rest r0
      obtain ⟨hs, hr⟩ := TimeSeriesRepository.foldl_lastByTime_le rest r0
      have hle : ∀ x ∈ r0 :: rest,
          x.time ≤
            (rest.foldl (fun acc r => if acc.time < r.time then r else acc) r0).time := by
        intro x hx
        rcases List.mem_cons.mp hx with rfl | hxt
        · exact hs
        · exact hr x hxt
      by_cases hge :
          rest.foldl (fun acc r => if acc.time < r.time then r else acc) r0 = g
      · rw [hclose, hge]
      · exact absurd (le_antisymm (hmax _ hmem) (hle g hg)) (hdist _ hmem g hg hge)
    · -- high: maximum
      obtain ⟨hseed, hub⟩ := TimeSeriesRepository.foldl_max_le
        (rest.map (fun r => r.high)) r0.high
      constructor
      · rw [hhigh]
        have hm := TimeSeriesRepository.foldl_max_mem (rest.map (fun r => r.high)) r0.high
        simpa using hm
      · intro x hx
        rw [hhigh]
        rcases List.mem_cons.mp hx with rfl | hxt
        · exact hseed
        · exact hub x.high (List.mem_map_of_mem _ hxt)
    · -- low: minimum
      obtain ⟨hseed, hlb⟩ := TimeSeriesRepository.foldl_min_le
        (rest.map (fun r => r.low)) r0.low
      constructor
      · rw [hlow]
        have hm := TimeSeriesRepository.foldl_min_mem (rest.map (fun r => r.low)) r0.low
        simpa using hm
      · intro x hx
        rw [hlow]
        rcases List.mem_cons.mp hx with rfl | hxt
        · exact hseed
        · exact hlb x.low (List.mem_map_of_mem _ hxt)
    · -- volume: sum
      show rest.foldl (fun acc r => acc + r.volume) r0.volume = _
      rw [TimeSeriesRepository.foldl_volume_sum]
      simp

/-- Witness for C2: a concrete store with two rows in the 120-second
bucket; the bucket opens at the earlier row, closes at the later row, and
sums the volumes. -/
theorem C2_bucket_aggregation_ohlc_witness :
    (⟨120, "000001", 11, 15, 8, 9, 9⟩ : TimeSeriesRepository.BucketRow).«open» =
      (⟨160, "000001", "A", 11, 15, 10, 14, 7⟩ : QuoteRec).«open» ∧
    (⟨120, "000001", 11, 15, 8, 9, 9⟩ : TimeSeriesRepository.BucketRow).close =
      (⟨200, "000001", "A", 14, 14, 8, 9, 2⟩ : QuoteRec).close ∧
    (⟨120, "000001", 11, 15, 8, 9, 9⟩ : TimeSeriesRepository.BucketRow).volume =
      ((TimeSeriesRepository.bucketRows
          [⟨100, "000001", "A", 10, 12, 9, 11, 5⟩,
            ⟨160, "000001", "A", 11, 15, 10, 14, 7⟩,
            ⟨200, "000001", "A", 14, 14, 8, 9, 2⟩]
          "000001" 0 1000 120
          (⟨120, "000001", 11, 15, 8, 9, 9⟩ : TimeSeriesRepository.BucketRow).bucket).map
        (fun r => r.volume)).sum := by
  have h := C2_bucket_aggregation_ohlc
    [⟨100, "000001", "A", 10, 12, 9, 11, 5⟩,
      ⟨160, "000001", "A", 11, 15, 10, 14, 7⟩,
      ⟨200, "000001", "A", 14, 14, 8, 9, 2⟩]
    "000001" 0 1000 120
    (by simp [TimeSeriesRepository.KeysNodup, List.pairwise_cons, sameKey])
    ⟨120, "000001", 11, 15, 8, 9, 9⟩ (by decide)
  exact ⟨h.2.1 ⟨160, "000001", "A", 11, 15, 10, 14, 7⟩ (by decide) (by decide),
    h.2.2.1 ⟨200, "000001", "A", 14, 14, 8, 9, 2⟩ (by decide) (by decide),
    h.2.2.2.2.2⟩
